import Mathlib

/-!
Verification of the AEAD record layer of fuckshadows-libev (src/aead.c).

The development shallowly embeds `aead.c` over byte lists (`List Nat`,
each element a byte value).  The external crypto primitives (libsodium /
mbed TLS AEAD ciphers, BLAKE2b hashing, `rand_bytes`) are modelled by a
deterministic pseudo-random function `prf`: encryption XORs the message
with a keystream derived from (key, nonce) and appends a tag computed
from (key, nonce, ciphertext); decryption checks the tag and inverts the
XOR.  The six `switch` branches of `aead_cipher_encrypt`/`_decrypt` are
modelled by this single ideal AEAD (the `default: return CRYPTO_ERROR`
branch is unreachable for ciphers produced by `aead_key_init`, whose
method is always in range).  Randomness (`rand_bytes` for the encrypt
salt) is passed in as an explicit parameter.  Buffers (`buffer_t`) are
byte lists; `capacity`/`brealloc` bookkeeping is external by the spec's
buffer contract.  The `MODULE_REMOTE` salt-replay guard is compiled out
in the client build and is not part of the claims settled here.
-/

/-! ### Constants from aead.c -/

def CHUNK_SIZE_LEN : Nat := 2

def CHUNK_SIZE_MASK : Nat := 0x3FFF

def AEAD_CIPHER_NUM : Nat := 6

/-- The 16-byte personal string "fuckshadows-g3nk" (SUBKEY_APPID). -/
def SUBKEY_APPID : List Nat :=
  [102, 117, 99, 107, 115, 104, 97, 100, 111, 119, 115, 45, 103, 51, 110, 107]

/-! ### Cipher catalog (aead.c lines 156-187) -/

def supported_aead_ciphers : List String :=
  ["aes-128-gcm", "aes-192-gcm", "aes-256-gcm",
   "chacha20-poly1305", "chacha20-ietf-poly1305", "xchacha20-ietf-poly1305"]

def supported_aead_ciphers_nonce_size : List Nat := [12, 12, 12, 8, 12, 24]

def supported_aead_ciphers_key_size : List Nat := [16, 24, 32, 32, 32, 32]

def supported_aead_ciphers_tag_size : List Nat := [16, 16, 16, 16, 16, 16]

/-! ### Model of the external crypto primitives -/

/-- One mixing step of the model hash (a simple byte-valued fold). -/
def mix (a b : Nat) : Nat := (a * 131 + b + 1) % 256

/-- Deterministic model PRF: `outlen` bytes derived from `seed`. -/
def prf (seed : List Nat) (outlen : Nat) : List Nat :=
  (List.range outlen).map (fun i => seed.foldl mix ((i + 1) % 256))

/-- Model keystream of the AEAD stream cipher for (key, nonce). -/
def keystream (k n : List Nat) (len : Nat) : List Nat :=
  prf (0 :: (k ++ n)) len

/-- Model authentication tag over the ciphertext for (key, nonce). -/
def tagOf (k n c : List Nat) (tlen : Nat) : List Nat :=
  prf (1 :: (k ++ n ++ c)) tlen

/-- Model of `sodium_increment`: little-endian increment with carry. -/
def sodium_increment : List Nat → List Nat
  | [] => []
  | b :: r => if b + 1 < 256 then (b + 1) :: r else 0 :: sodium_increment r

/-- Byte-wise XOR of two equal-length byte lists. -/
def xorBytes (a b : List Nat) : List Nat :=
  List.zipWith (fun x y => x ^^^ y) a b

/--
Model of `aead_cipher_encrypt` (aead.c lines 189-234): produces
ciphertext of `m` followed by the authentication tag.  The
`cipher_ctx_t` argument of the C function only selects the primitive
(the six supported branches are modelled uniformly); key and nonce are
the explicit `k` and `n` arguments as in the source.
-/
def aead_cipher_encrypt (k n : List Nat) (tlen : Nat) (m : List Nat) : List Nat :=
  let c := xorBytes m (keystream k n m.length)
  c ++ tagOf k n c tlen

/--
Model of `aead_cipher_decrypt` (aead.c lines 236-280): the input holds
ciphertext followed by the tag; on tag mismatch the primitives return an
authentication error, modelled as `none`.
-/
def aead_cipher_decrypt (k n : List Nat) (tlen : Nat) (input : List Nat) :
    Option (List Nat) :=
  let clen := input.length - tlen
  let c := input.take clen
  let t := input.drop clen
  if t = tagOf k n c tlen then some (xorBytes c (keystream k n clen))
  else none

/-- Model of `aead_derive_key` (aead.c lines 289-302): BLAKE2b of the
password, producing exactly `klen` bytes. -/
def aead_derive_key (pass : List Nat) (klen : Nat) : List Nat :=
  prf (2 :: pass) klen

/--
Model of the subkey derivation inside `aead_cipher_ctx_set_subkey`
(aead.c lines 304-337): `blake2b_salt_personal(master, salt, personal)`
producing `klen` bytes; only the first 16 salt bytes are read
(`crypto_generichash_blake2b_SALTBYTES`, see the comment at line 307).
-/
def aead_cipher_ctx_set_subkey (key : List Nat) (klen : Nat) (salt : List Nat) :
    List Nat :=
  prf (3 :: (key ++ salt.take 16 ++ SUBKEY_APPID)) klen

/-! ### Data model -/

/-- `cipher_t`: master cipher descriptor (method id, master key, sizes). -/
structure cipher_t where
  method : Nat
  key : List Nat
  key_len : Nat
  nonce_len : Nat
  tag_len : Nat
deriving DecidableEq, Repr

/-- `cipher_ctx_t`: per-direction session state.  `chunk` is the receive
reassembly buffer (NULL in C until the first decrypt call, modelled as
the empty list). -/
structure cipher_ctx_t where
  cipher : cipher_t
  init : Bool
  salt : List Nat
  subkey : List Nat
  nonce : List Nat
  chunk : List Nat
deriving DecidableEq, Repr

/-- `aead_key_init` (aead.c lines 803-840): build the master cipher for
a method id from the catalog tables; out-of-range methods yield NULL. -/
def aead_key_init (method : Nat) (pass : List Nat) : Option cipher_t :=
  if method ≥ AEAD_CIPHER_NUM then none
  else
    let klen := supported_aead_ciphers_key_size.getD method 0
    some { method := method
           key := aead_derive_key pass klen
           key_len := klen
           nonce_len := supported_aead_ciphers_nonce_size.getD method 0
           tag_len := supported_aead_ciphers_tag_size.getD method 0 }

/-- `aead_init` (aead.c lines 842-858): resolve the method name.  A NULL
name leaves `m = AES128GCM`; a non-NULL name is looked up in the catalog
and an unmatched name falls back to `AES256GCM`. -/
def aead_init (pass : List Nat) (method : Option String) : Option cipher_t :=
  match method with
  | none => aead_key_init 0 pass
  | some name =>
    let m := supported_aead_ciphers.findIdx (fun s => s == name)
    if m ≥ AEAD_CIPHER_NUM then aead_key_init 2 pass
    else aead_key_init m pass

/-- `aead_ctx_init` (aead.c lines 420-431): zero the context, attach the
cipher, and on the encrypt side draw a random salt (`rand_salt` stands
for the `rand_bytes` output). -/
def aead_ctx_init (cip : cipher_t) (rand_salt : List Nat) (enc : Bool) :
    cipher_ctx_t :=
  { cipher := cip
    init := false
    salt := if enc then rand_salt else List.replicate cip.key_len 0
    subkey := List.replicate cip.key_len 0
    nonce := List.replicate cip.nonce_len 0
    chunk := [] }

/-! ### UDP one-shot codec -/

/-- `aead_encrypt_all` (aead.c lines 450-498): salt, then one AEAD pass
over the whole datagram with the master key and the (all-zero) context
nonce. -/
def aead_encrypt_all (cip : cipher_t) (rand_salt : List Nat) (p : List Nat) :
    List Nat :=
  let ctx := aead_ctx_init cip rand_salt true
  ctx.salt ++ aead_cipher_encrypt ctx.cipher.key ctx.nonce ctx.cipher.tag_len p

/-- `aead_decrypt_all` (aead.c lines 500-566): length guard, then one
AEAD pass over the rest with the master key and the zero nonce. -/
def aead_decrypt_all (cip : cipher_t) (c : List Nat) : Option (List Nat) :=
  if c.length ≤ cip.key_len + cip.tag_len then none
  else
    let ctx := aead_ctx_init cip [] false
    aead_cipher_decrypt ctx.cipher.key ctx.nonce ctx.cipher.tag_len
      (c.drop cip.key_len)

/-! ### TCP stream codec, encrypt side -/

/-- Big-endian 16-bit length field as written by `htons`+`memcpy`. -/
def lenBytes (m : Nat) : List Nat := [m / 256, m % 256]

/-- 16-bit big-endian read of the decrypted length field (`ntohs`). -/
def lenVal (lb : List Nat) : Nat := 256 * lb.headD 0 + lb.tail.headD 0

/--
`aead_chunk_encrypt` (aead.c lines 568-605): encrypt the 2-byte length
with the current nonce, increment, encrypt the payload, increment.
`plen` is reduced mod 2^16 (the C parameter is `uint16_t`) and clamped
by `min(plen, CHUNK_SIZE_MASK)`.  Returns (ciphertext, new nonce).
-/
def aead_chunk_encrypt (ctx : cipher_ctx_t) (p : List Nat) (n : List Nat)
    (plen : Nat) : List Nat × List Nat :=
  let tlen := ctx.cipher.tag_len
  let real_plen := min (plen % 65536) CHUNK_SIZE_MASK
  let c1 := aead_cipher_encrypt ctx.subkey n tlen (lenBytes real_plen)
  let n1 := sodium_increment n
  let c2 := aead_cipher_encrypt ctx.subkey n1 tlen (p.take real_plen)
  (c1 ++ c2, sodium_increment n1)

/--
`aead_encrypt` (aead.c lines 607-659): zero-length input returns at once
with no output; on the first call the subkey is derived, the nonce
zeroed and the salt prepended.  Returns (output buffer contents, new
context); the C `CRYPTO_OK` return corresponds to reaching the result.
-/
def aead_encrypt (ctx : cipher_ctx_t) (p : List Nat) : List Nat × cipher_ctx_t :=
  if p.length = 0 then (p, ctx)
  else
    let ctx1 :=
      if ctx.init then ctx
      else { ctx with
              subkey := aead_cipher_ctx_set_subkey ctx.cipher.key
                          ctx.cipher.key_len ctx.salt
              nonce := List.replicate ctx.cipher.nonce_len 0
              init := true }
    let sp := if ctx.init then ([] : List Nat) else ctx.salt
    let r := aead_chunk_encrypt ctx1 p ctx1.nonce p.length
    (sp ++ r.1, { ctx1 with nonce := r.2 })

/-- Driver: successive `aead_encrypt` calls, concatenating the emitted
frames (what the caller writes to the socket). -/
def encryptSeq (ctx : cipher_ctx_t) : List (List Nat) → List Nat × cipher_ctx_t
  | [] => ([], ctx)
  | p :: ps =>
    let r := aead_encrypt ctx p
    let s := encryptSeq r.2 ps
    (r.1 ++ s.1, s.2)

/-! ### TCP stream codec, decrypt side -/

/-- Result of `aead_chunk_decrypt`: on success the chunk plaintext, the
remaining reassembly bytes after the `memmove`, and the new nonce. -/
inductive ChunkDec where
  | ok : List Nat → List Nat → List Nat → ChunkDec
  | needMore : ChunkDec
  | error : ChunkDec
deriving DecidableEq, Repr

/--
`aead_chunk_decrypt` (aead.c lines 661-714).  Note the order of
operations: the `*clen < chunk_len` check returns `CRYPTO_NEED_MORE`
before any `sodium_increment`, so a partial chunk leaves the nonce (and
the buffered bytes) untouched.
-/
def aead_chunk_decrypt (ctx : cipher_ctx_t) (c : List Nat) (n : List Nat) :
    ChunkDec :=
  let tlen := ctx.cipher.tag_len
  if c.length ≤ 2 * tlen + CHUNK_SIZE_LEN then ChunkDec.needMore
  else
    match aead_cipher_decrypt ctx.subkey n tlen
            (c.take (CHUNK_SIZE_LEN + tlen)) with
    | none => ChunkDec.error
    | some len_buf =>
      let mlen := lenVal len_buf
      if mlen > CHUNK_SIZE_MASK then ChunkDec.error
      else if mlen = 0 then ChunkDec.error
      else
        let chunk_len := 2 * tlen + CHUNK_SIZE_LEN + mlen
        if c.length < chunk_len then ChunkDec.needMore
        else
          let n1 := sodium_increment n
          match aead_cipher_decrypt ctx.subkey n1 tlen
                  ((c.drop (CHUNK_SIZE_LEN + tlen)).take (mlen + tlen)) with
          | none => ChunkDec.error
          | some p => ChunkDec.ok p (c.drop chunk_len) (sodium_increment n1)

/-- Result of the chunk-popping `while` loop inside `aead_decrypt`:
accumulated plaintext, remaining reassembly bytes, final nonce.  `more`
means the loop stopped on `CRYPTO_NEED_MORE`, `done` that the buffer ran
empty. -/
inductive LoopRes where
  | err : LoopRes
  | more : List Nat → List Nat → List Nat → LoopRes
  | done : List Nat → List Nat → List Nat → LoopRes
deriving DecidableEq, Repr

/-- The `while (chunk->len > 0)` loop of `aead_decrypt` (aead.c lines
768-788).  `fuel` bounds the iteration count; every completed chunk
consumes at least 3 bytes, so `c.length + 1` fuel always suffices. -/
def aead_decrypt_chunks (ctx : cipher_ctx_t) :
    Nat → List Nat → List Nat → LoopRes
  | 0, _, _ => LoopRes.err
  | Nat.succ fuel, c, n =>
    if c.length = 0 then LoopRes.done [] c n
    else
      match aead_chunk_decrypt ctx c n with
      | ChunkDec.error => LoopRes.err
      | ChunkDec.needMore => LoopRes.more [] c n
      | ChunkDec.ok p c1 n1 =>
        match aead_decrypt_chunks ctx fuel c1 n1 with
        | LoopRes.err => LoopRes.err
        | LoopRes.more acc c2 n2 => LoopRes.more (p ++ acc) c2 n2
        | LoopRes.done acc c2 n2 => LoopRes.done (p ++ acc) c2 n2

/-- Result of `aead_decrypt`: `ok` carries the plaintext written back
into the caller's buffer and the updated context. -/
inductive DecResult where
  | ok : List Nat → cipher_ctx_t → DecResult
  | needMore : cipher_ctx_t → DecResult
  | error : DecResult
deriving DecidableEq, Repr

/-- Tail of `aead_decrypt` after the (possible) salt consumption: run
the chunk loop and map its outcome to the function's return value
(aead.c lines 767-800): `NEED_MORE` with no plaintext produced is
propagated, otherwise the accumulated plaintext is returned. -/
def aead_decrypt_finish (ctx : cipher_ctx_t) (c n : List Nat) : DecResult :=
  match aead_decrypt_chunks ctx (c.length + 1) c n with
  | LoopRes.err => DecResult.error
  | LoopRes.more acc c1 n1 =>
    if acc.length = 0 then DecResult.needMore { ctx with chunk := c1, nonce := n1 }
    else DecResult.ok acc { ctx with chunk := c1, nonce := n1 }
  | LoopRes.done acc c1 n1 =>
    DecResult.ok acc { ctx with chunk := c1, nonce := n1 }

/--
`aead_decrypt` (aead.c lines 716-801): append the input to the
reassembly buffer; while uninitialized, wait for strictly more than
`key_len` buffered bytes (note the `<=` at line 742), then consume the
salt, derive the subkey and zero the nonce; finally pop chunks.
-/
def aead_decrypt (ctx : cipher_ctx_t) (cin : List Nat) : DecResult :=
  let chunk0 := ctx.chunk ++ cin
  if ctx.init then aead_decrypt_finish ctx chunk0 ctx.nonce
  else if chunk0.length ≤ ctx.cipher.key_len then
    DecResult.needMore { ctx with chunk := chunk0 }
  else
    let slt := chunk0.take ctx.cipher.key_len
    let ctx1 := { ctx with
                   init := true
                   salt := slt
                   subkey := aead_cipher_ctx_set_subkey ctx.cipher.key
                               ctx.cipher.key_len slt
                   nonce := List.replicate ctx.cipher.nonce_len 0
                   chunk := chunk0.drop ctx.cipher.key_len }
    aead_decrypt_finish ctx1 ctx1.chunk ctx1.nonce

/-- Driver: feed ciphertext segments to `aead_decrypt` in order,
concatenating the plaintext outputs; `none` if any call errors. -/
def feedSegments (ctx : cipher_ctx_t) :
    List (List Nat) → Option (List Nat × cipher_ctx_t)
  | [] => some ([], ctx)
  | s :: ss =>
    match aead_decrypt ctx s with
    | DecResult.error => none
    | DecResult.needMore ctx1 => feedSegments ctx1 ss
    | DecResult.ok out ctx1 =>
      match feedSegments ctx1 ss with
      | none => none
      | some (rest, cf) => some (out ++ rest, cf)

/-! ### Specification-side helpers -/

/-- Uniform view of a non-error `aead_decrypt` outcome: the plaintext
emitted by the call (empty on `NEED_MORE`) and the updated context. -/
def DecResult.outState : DecResult → Option (List Nat × cipher_ctx_t)
  | DecResult.ok out ctx => some (out, ctx)
  | DecResult.needMore ctx => some ([], ctx)
  | DecResult.error => none

/-- Uniform view of a non-error loop outcome: accumulated plaintext,
leftover buffer, final nonce. -/
def LoopRes.out : LoopRes → Option (List Nat × List Nat × List Nat)
  | LoopRes.err => none
  | LoopRes.more acc c n => some (acc, c, n)
  | LoopRes.done acc c n => some (acc, c, n)

/-- A well-formed chunk plaintext: nonempty and within the length mask. -/
abbrev chunkOK (q : List Nat) : Prop :=
  0 < q.length ∧ q.length ≤ CHUNK_SIZE_MASK

/-- The wire image of one chunk of plaintext `q` under subkey `sk`,
starting nonce `n`: length ciphertext then payload ciphertext. -/
def encChunk (sk : List Nat) (tlen : Nat) (n : List Nat) (q : List Nat) :
    List Nat :=
  aead_cipher_encrypt sk n tlen (lenBytes q.length) ++
    aead_cipher_encrypt sk (sodium_increment n) tlen q

/-- The wire image of a whole chunk sequence from starting nonce `n`. -/
def encStream (sk : List Nat) (tlen : Nat) : List Nat → List (List Nat) → List Nat
  | _, [] => []
  | n, q :: qs =>
    encChunk sk tlen n q ++
      encStream sk tlen (sodium_increment (sodium_increment n)) qs

/-! ### Basic lemmas about the model primitives -/

theorem prf_length (seed : List Nat) (outlen : Nat) :
    (prf seed outlen).length = outlen := by
  simp [prf]

theorem keystream_length (k n : List Nat) (len : Nat) :
    (keystream k n len).length = len := by
  simp [keystream, prf_length]

theorem tagOf_length (k n c : List Nat) (tlen : Nat) :
    (tagOf k n c tlen).length = tlen := by
  simp [tagOf, prf_length]

theorem xorBytes_length (a b : List Nat) :
    (xorBytes a b).length = min a.length b.length := by
  simp [xorBytes]

theorem xorBytes_cancel : ∀ (m ks : List Nat), m.length = ks.length →
    xorBytes (xorBytes m ks) ks = m := by
  intro m
  induction m with
  | nil => intro ks _; simp [xorBytes]
  | cons a m ih =>
    intro ks h
    cases ks with
    | nil => simp at h
    | cons b ks =>
      simp only [List.length_cons, Nat.succ.injEq] at h
      have := ih ks h
      simp only [xorBytes, List.zipWith_cons_cons] at this ⊢
      rw [Nat.xor_assoc, Nat.xor_self, Nat.xor_zero]
      exact congrArg (a :: ·) this

theorem aead_cipher_encrypt_length (k n : List Nat) (tlen : Nat) (m : List Nat) :
    (aead_cipher_encrypt k n tlen m).length = m.length + tlen := by
  simp [aead_cipher_encrypt, xorBytes_length, keystream_length, tagOf_length]

/-- The model AEAD round-trips: decrypting an honest encryption with the
same key and nonce authenticates and recovers the message. -/
theorem aead_cipher_roundtrip (k n : List Nat) (tlen : Nat) (m : List Nat) :
    aead_cipher_decrypt k n tlen (aead_cipher_encrypt k n tlen m) = some m := by
  have hc : (xorBytes m (keystream k n m.length)).length = m.length := by
    simp [xorBytes_length, keystream_length]
  simp only [aead_cipher_decrypt, aead_cipher_encrypt]
  rw [List.length_append, tagOf_length, hc, Nat.add_sub_cancel,
      List.take_append_of_le_length (by omega), List.take_of_length_le (by omega),
      List.drop_append_of_le_length (by omega), List.drop_eq_nil_of_le (by omega)]
  simp only [List.nil_append, if_true, eq_self_iff_true]
  rw [xorBytes_cancel m (keystream k n m.length) (keystream_length k n m.length).symm]

theorem lenBytes_length (m : Nat) : (lenBytes m).length = 2 := rfl

theorem lenVal_lenBytes (m : Nat) : lenVal (lenBytes m) = m := by
  simp [lenVal, lenBytes, Nat.div_add_mod]

theorem encChunk_length (sk : List Nat) (tlen : Nat) (n q : List Nat) :
    (encChunk sk tlen n q).length = 2 * tlen + CHUNK_SIZE_LEN + q.length := by
  simp [encChunk, aead_cipher_encrypt_length, lenBytes, CHUNK_SIZE_LEN]
  omega

/-- `aead_chunk_encrypt` on an in-range plaintext emits exactly the wire
chunk `encChunk` and advances the nonce twice. -/
theorem aead_chunk_encrypt_spec (ctx : cipher_ctx_t) (q n : List Nat)
    (hq : q.length ≤ CHUNK_SIZE_MASK) :
    aead_chunk_encrypt ctx q n q.length =
      (encChunk ctx.subkey ctx.cipher.tag_len n q,
       sodium_increment (sodium_increment n)) := by
  have h65 : CHUNK_SIZE_MASK < 65536 := by decide
  have h1 : q.length % 65536 = q.length := Nat.mod_eq_of_lt (by omega)
  have h2 : min (q.length % 65536) CHUNK_SIZE_MASK = q.length := by
    rw [h1]; omega
  simp only [aead_chunk_encrypt, encChunk, h2, List.take_length]

/-- Splitting a buffered prefix of a chunk-aligned stream at the length
ciphertext: the first `2 + tag_len` buffered bytes are the length
ciphertext of the first chunk. -/
theorem buffered_take_lenct (ctx : cipher_ctx_t) (n q buf w S : List Nat)
    (hz : buf ++ w = encChunk ctx.subkey ctx.cipher.tag_len n q ++ S)
    (hlen : CHUNK_SIZE_LEN + ctx.cipher.tag_len ≤ buf.length) :
    buf.take (CHUNK_SIZE_LEN + ctx.cipher.tag_len) =
      aead_cipher_encrypt ctx.subkey n ctx.cipher.tag_len (lenBytes q.length) := by
  have he1 : (aead_cipher_encrypt ctx.subkey n ctx.cipher.tag_len
      (lenBytes q.length)).length = CHUNK_SIZE_LEN + ctx.cipher.tag_len := by
    rw [aead_cipher_encrypt_length, lenBytes_length]; rfl
  have := congrArg (List.take (CHUNK_SIZE_LEN + ctx.cipher.tag_len)) hz
  rw [List.take_append_of_le_length hlen, encChunk, List.append_assoc,
      List.take_left' he1] at this
  exact this

/-- Likewise, when the whole chunk is buffered, the payload ciphertext
is the next `q.length + tag_len` buffered bytes. -/
theorem buffered_take_payloadct (ctx : cipher_ctx_t) (n q buf w S : List Nat)
    (hz : buf ++ w = encChunk ctx.subkey ctx.cipher.tag_len n q ++ S)
    (hlen : 2 * ctx.cipher.tag_len + CHUNK_SIZE_LEN + q.length ≤ buf.length) :
    (buf.drop (CHUNK_SIZE_LEN + ctx.cipher.tag_len)).take
        (q.length + ctx.cipher.tag_len) =
      aead_cipher_encrypt ctx.subkey (sodium_increment n) ctx.cipher.tag_len q := by
  have he1 : (aead_cipher_encrypt ctx.subkey n ctx.cipher.tag_len
      (lenBytes q.length)).length = CHUNK_SIZE_LEN + ctx.cipher.tag_len := by
    rw [aead_cipher_encrypt_length, lenBytes_length]; rfl
  have he2 : (aead_cipher_encrypt ctx.subkey (sodium_increment n)
      ctx.cipher.tag_len q).length = q.length + ctx.cipher.tag_len := by
    rw [aead_cipher_encrypt_length]
  have hd := congrArg (List.drop (CHUNK_SIZE_LEN + ctx.cipher.tag_len)) hz
  rw [List.drop_append_of_le_length (by omega), encChunk, List.append_assoc,
      List.drop_left' he1] at hd
  have := congrArg (List.take (q.length + ctx.cipher.tag_len)) hd
  rw [List.take_append_of_le_length (by simp; omega), List.take_left' he2] at this
  exact this

/-- A fully buffered first chunk decrypts to its plaintext, consumes its
bytes, and advances the nonce twice. -/
theorem aead_chunk_decrypt_complete (ctx : cipher_ctx_t) (n q buf w S : List Nat)
    (hq : chunkOK q)
    (hz : buf ++ w = encChunk ctx.subkey ctx.cipher.tag_len n q ++ S)
    (hlen : 2 * ctx.cipher.tag_len + CHUNK_SIZE_LEN + q.length ≤ buf.length) :
    aead_chunk_decrypt ctx buf n =
      ChunkDec.ok q
        (buf.drop (2 * ctx.cipher.tag_len + CHUNK_SIZE_LEN + q.length))
        (sodium_increment (sodium_increment n)) := by
  obtain ⟨hq1, hq2⟩ := hq
  have h1 := buffered_take_lenct ctx n q buf w S hz (by omega)
  have h2 := buffered_take_payloadct ctx n q buf w S hz hlen
  simp only [aead_chunk_decrypt]
  rw [if_neg (by omega : ¬ buf.length ≤ 2 * ctx.cipher.tag_len + CHUNK_SIZE_LEN)]
  rw [h1, aead_cipher_roundtrip]
  simp only [lenVal_lenBytes]
  rw [if_neg (by omega : ¬ q.length > CHUNK_SIZE_MASK),
      if_neg (by omega : ¬ q.length = 0),
      if_neg (by omega :
        ¬ buf.length < 2 * ctx.cipher.tag_len + CHUNK_SIZE_LEN + q.length)]
  rw [h2, aead_cipher_roundtrip]

/-- A partially buffered first chunk yields `NEED_MORE`; in particular
no nonce value is produced (the C function returns before any
`sodium_increment`). -/
theorem aead_chunk_decrypt_partial (ctx : cipher_ctx_t) (n q buf w S : List Nat)
    (hq : chunkOK q)
    (hz : buf ++ w = encChunk ctx.subkey ctx.cipher.tag_len n q ++ S)
    (hshort : buf.length < 2 * ctx.cipher.tag_len + CHUNK_SIZE_LEN + q.length) :
    aead_chunk_decrypt ctx buf n = ChunkDec.needMore := by
  obtain ⟨hq1, hq2⟩ := hq
  by_cases hg : buf.length ≤ 2 * ctx.cipher.tag_len + CHUNK_SIZE_LEN
  · simp only [aead_chunk_decrypt]
    rw [if_pos hg]
  · have h1 := buffered_take_lenct ctx n q buf w S hz (by omega)
    simp only [aead_chunk_decrypt]
    rw [if_neg hg, h1, aead_cipher_roundtrip]
    simp only [lenVal_lenBytes]
    rw [if_neg (by omega : ¬ q.length > CHUNK_SIZE_MASK),
        if_neg (by omega : ¬ q.length = 0),
        if_pos (by omega :
          buf.length < 2 * ctx.cipher.tag_len + CHUNK_SIZE_LEN + q.length)]

/-- The chunk-popping loop, run on a buffered portion of a valid chunk
stream, never errors: it decodes some number `k` of complete chunks, the
leftover bytes stay strictly inside the next chunk (or are empty), and
the final nonce matches the stream position. -/
theorem aead_decrypt_chunks_split (ctx : cipher_ctx_t) :
    ∀ (qs : List (List Nat)), (∀ q ∈ qs, chunkOK q) →
    ∀ (n buf z : List Nat) (fuel : Nat),
      buf ++ z = encStream ctx.subkey ctx.cipher.tag_len n qs →
      buf.length < fuel →
      ∃ k r n1,
        LoopRes.out (aead_decrypt_chunks ctx fuel buf n) =
          some ((qs.take k).flatten, r, n1) ∧
        r ++ z = encStream ctx.subkey ctx.cipher.tag_len n1 (qs.drop k) ∧
        (r = [] ∨ ∃ q qs2, qs.drop k = q :: qs2 ∧
          r.length < 2 * ctx.cipher.tag_len + CHUNK_SIZE_LEN + q.length) := by
  intro qs
  induction qs with
  | nil =>
    intro hb n buf z fuel heq hfuel
    simp only [encStream] at heq
    obtain ⟨hbuf, hz⟩ := List.append_eq_nil.mp heq
    subst hbuf; subst hz
    cases fuel with
    | zero => omega
    | succ f =>
      refine ⟨0, [], n, ?_, ?_, Or.inl rfl⟩
      · simp [aead_decrypt_chunks, LoopRes.out]
      · simp [encStream]
  | cons q qs ih =>
    intro hb n buf z fuel heq hfuel
    have hq : chunkOK q := hb q (List.mem_cons_self q qs)
    have hbtail : ∀ p ∈ qs, chunkOK p := fun p hp => hb p (List.mem_cons_of_mem _ hp)
    have heq1 : buf ++ z =
        encChunk ctx.subkey ctx.cipher.tag_len n q ++
          encStream ctx.subkey ctx.cipher.tag_len
            (sodium_increment (sodium_increment n)) qs := by
      simpa [encStream] using heq
    by_cases hcase :
        buf.length < 2 * ctx.cipher.tag_len + CHUNK_SIZE_LEN + q.length
    · by_cases hemp : buf.length = 0
      · have hbuf : buf = [] := List.length_eq_zero.mp hemp
        cases fuel with
        | zero => omega
        | succ f =>
          refine ⟨0, buf, n, ?_, ?_, Or.inl hbuf⟩
          · subst hbuf; simp [aead_decrypt_chunks, LoopRes.out]
          · simpa [encStream] using heq
      · have hnm := aead_chunk_decrypt_partial ctx n q buf z
          (encStream ctx.subkey ctx.cipher.tag_len
            (sodium_increment (sodium_increment n)) qs) hq heq1 hcase
        cases fuel with
        | zero => omega
        | succ f =>
          refine ⟨0, buf, n, ?_, ?_,
            Or.inr ⟨q, qs, rfl, hcase⟩⟩
          · simp only [aead_decrypt_chunks]
            rw [if_neg hemp, hnm]
            simp [LoopRes.out]
          · simpa [encStream] using heq
    · push_neg at hcase
      have hcd := aead_chunk_decrypt_complete ctx n q buf z
        (encStream ctx.subkey ctx.cipher.tag_len
          (sodium_increment (sodium_increment n)) qs) hq heq1 hcase
      have hpos : 0 < buf.length := by have := hq.1; omega
      cases fuel with
      | zero => omega
      | succ f =>
        have hded : buf.drop (2 * ctx.cipher.tag_len + CHUNK_SIZE_LEN + q.length)
            ++ z =
            encStream ctx.subkey ctx.cipher.tag_len
              (sodium_increment (sodium_increment n)) qs := by
          have h := congrArg
            (List.drop (2 * ctx.cipher.tag_len + CHUNK_SIZE_LEN + q.length)) heq1
          rwa [List.drop_append_of_le_length hcase,
               List.drop_left' (encChunk_length _ _ _ _)] at h
        have hfr : (buf.drop
            (2 * ctx.cipher.tag_len + CHUNK_SIZE_LEN + q.length)).length < f := by
          rw [List.length_drop]
          have := hq.1
          omega
        obtain ⟨k, r, n1, h1, h2, h3⟩ :=
          ih hbtail (sodium_increment (sodium_increment n))
            (buf.drop (2 * ctx.cipher.tag_len + CHUNK_SIZE_LEN + q.length)) z f
            hded hfr
        refine ⟨k + 1, r, n1, ?_, ?_, ?_⟩
        · have hstep : aead_decrypt_chunks ctx (f + 1) buf n =
              match aead_decrypt_chunks ctx f
                  (buf.drop (2 * ctx.cipher.tag_len + CHUNK_SIZE_LEN + q.length))
                  (sodium_increment (sodium_increment n)) with
              | LoopRes.err => LoopRes.err
              | LoopRes.more acc c2 n2 => LoopRes.more (q ++ acc) c2 n2
              | LoopRes.done acc c2 n2 => LoopRes.done (q ++ acc) c2 n2 := by
            simp only [aead_decrypt_chunks]
            rw [if_neg (by omega : ¬ buf.length = 0), hcd]
          rw [hstep]
          rcases hl : aead_decrypt_chunks ctx f
              (buf.drop (2 * ctx.cipher.tag_len + CHUNK_SIZE_LEN + q.length))
              (sodium_increment (sodium_increment n)) with
            _ | ⟨a, c2, n2⟩ | ⟨a, c2, n2⟩
          · rw [hl] at h1; exact absurd h1 (by simp [LoopRes.out])
          · rw [hl] at h1
            simp only [LoopRes.out, Option.some.injEq, Prod.mk.injEq] at h1
            obtain ⟨ha, hc2, hn2⟩ := h1
            simp [LoopRes.out, ha, hc2, hn2]
          · rw [hl] at h1
            simp only [LoopRes.out, Option.some.injEq, Prod.mk.injEq] at h1
            obtain ⟨ha, hc2, hn2⟩ := h1
            simp [LoopRes.out, ha, hc2, hn2]
        · simpa using h2
        · simpa using h3

theorem encStream_cons_length (sk : List Nat) (tl : Nat) (n q : List Nat)
    (qs : List (List Nat)) :
    2 * tl + CHUNK_SIZE_LEN + q.length ≤ (encStream sk tl n (q :: qs)).length := by
  simp only [encStream, List.length_append, encChunk_length]
  omega

/-- `aead_decrypt_finish` on a buffered portion of a valid chunk stream:
never an error; emits the plaintexts of the complete buffered chunks and
stores leftover bytes and nonce back in the context. -/
theorem aead_decrypt_finish_split (ctx : cipher_ctx_t) (qs : List (List Nat))
    (n c z : List Nat) (hb : ∀ q ∈ qs, chunkOK q)
    (heq : c ++ z = encStream ctx.subkey ctx.cipher.tag_len n qs) :
    ∃ k r n1,
      DecResult.outState (aead_decrypt_finish ctx c n) =
        some ((qs.take k).flatten, { ctx with chunk := r, nonce := n1 }) ∧
      r ++ z = encStream ctx.subkey ctx.cipher.tag_len n1 (qs.drop k) ∧
      (r = [] ∨ ∃ q qs2, qs.drop k = q :: qs2 ∧
        r.length < 2 * ctx.cipher.tag_len + CHUNK_SIZE_LEN + q.length) := by
  obtain ⟨k, r, n1, h1, h2, h3⟩ :=
    aead_decrypt_chunks_split ctx qs hb n c z (c.length + 1) heq (by omega)
  refine ⟨k, r, n1, ?_, h2, h3⟩
  simp only [aead_decrypt_finish]
  rcases hl : aead_decrypt_chunks ctx (c.length + 1) c n with
    _ | ⟨a, c2, n2⟩ | ⟨a, c2, n2⟩
  · rw [hl] at h1; exact absurd h1 (by simp [LoopRes.out])
  · rw [hl] at h1
    simp only [LoopRes.out, Option.some.injEq, Prod.mk.injEq] at h1
    obtain ⟨ha, hc2, hn2⟩ := h1
    by_cases hz : a.length = 0
    · have haz : a = [] := List.length_eq_zero.mp hz
      rw [← ha]
      simp [DecResult.outState, hz, haz, hc2, hn2]
    · rw [← ha]
      simp [DecResult.outState, hz, hc2, hn2]
  · rw [hl] at h1
    simp only [LoopRes.out, Option.some.injEq, Prod.mk.injEq] at h1
    obtain ⟨ha, hc2, hn2⟩ := h1
    simp [DecResult.outState, ha, hc2, hn2]

/-- One `aead_decrypt` call on an initialized context whose buffered and
incoming bytes form a portion of a valid chunk stream. -/
theorem aead_decrypt_spec_inited (ctx : cipher_ctx_t) (hinit : ctx.init = true)
    (qs : List (List Nat)) (z s : List Nat) (hb : ∀ q ∈ qs, chunkOK q)
    (heq : (ctx.chunk ++ s) ++ z =
      encStream ctx.subkey ctx.cipher.tag_len ctx.nonce qs) :
    ∃ k r n1,
      DecResult.outState (aead_decrypt ctx s) =
        some ((qs.take k).flatten, { ctx with chunk := r, nonce := n1 }) ∧
      r ++ z = encStream ctx.subkey ctx.cipher.tag_len n1 (qs.drop k) ∧
      (r = [] ∨ ∃ q qs2, qs.drop k = q :: qs2 ∧
        r.length < 2 * ctx.cipher.tag_len + CHUNK_SIZE_LEN + q.length) := by
  have h := aead_decrypt_finish_split ctx qs ctx.nonce (ctx.chunk ++ s) z hb heq
  simpa [aead_decrypt, hinit] using h

/-- Feeding any sequence of segments to an initialized decrypt context
whose buffered bytes plus the incoming bytes form a leading portion of a
valid chunk stream: no call ever errors, and the concatenated outputs
are exactly the plaintexts of the chunks that became complete.  When the
segments supply the whole remaining stream (`z = []`), every chunk is
recovered. -/
theorem feedSegments_inited :
    ∀ (segs : List (List Nat)) (ctx : cipher_ctx_t) (qs : List (List Nat))
      (z : List Nat),
      ctx.init = true → (∀ q ∈ qs, chunkOK q) →
      (ctx.chunk ++ segs.flatten) ++ z =
        encStream ctx.subkey ctx.cipher.tag_len ctx.nonce qs →
      (segs = [] → (ctx.chunk = [] ∨ ∃ q qs2, qs = q :: qs2 ∧
        ctx.chunk.length < 2 * ctx.cipher.tag_len + CHUNK_SIZE_LEN + q.length)) →
      ∃ k cf, feedSegments ctx segs = some ((qs.take k).flatten, cf) ∧
        (z = [] → qs.drop k = []) := by
  intro segs
  induction segs with
  | nil =>
    intro ctx qs z hinit hb heq hinv
    refine ⟨0, ctx, by simp [feedSegments], ?_⟩
    intro hz
    subst hz
    rcases qs with _ | ⟨q, qs2⟩
    · rfl
    · exfalso
      simp only [List.flatten_nil, List.append_nil] at heq
      have hlen := encStream_cons_length ctx.subkey ctx.cipher.tag_len
        ctx.nonce q qs2
      rw [← heq] at hlen
      have hq1 := (hb q (List.mem_cons_self q qs2)).1
      rcases hinv rfl with hc | ⟨q', qs2', hq', hlt⟩
      · rw [hc] at hlen
        simp only [List.length_nil] at hlen
        omega
      · have hqq : q' = q := by
          injection hq' with h1 _
          exact h1.symm
        rw [hqq] at hlt
        omega
  | cons s ss ihs =>
    intro ctx qs z hinit hb heq hinv
    have heq' : (ctx.chunk ++ s) ++ (ss.flatten ++ z) =
        encStream ctx.subkey ctx.cipher.tag_len ctx.nonce qs := by
      simpa [List.append_assoc] using heq
    obtain ⟨k1, r, n1, h1, h2, h3⟩ :=
      aead_decrypt_spec_inited ctx hinit qs (ss.flatten ++ z) s hb heq'
    have hb2 : ∀ q ∈ qs.drop k1, chunkOK q :=
      fun q hq => hb q (List.drop_subset _ _ hq)
    have heq2 :
        (({ ctx with chunk := r, nonce := n1 } : cipher_ctx_t).chunk ++
          ss.flatten) ++ z =
        encStream ({ ctx with chunk := r, nonce := n1 } : cipher_ctx_t).subkey
          ({ ctx with chunk := r, nonce := n1 } : cipher_ctx_t).cipher.tag_len
          ({ ctx with chunk := r, nonce := n1 } : cipher_ctx_t).nonce
          (qs.drop k1) := by
      simpa [List.append_assoc] using h2
    obtain ⟨k2, cf, hfeed, hlast⟩ :=
      ihs { ctx with chunk := r, nonce := n1 } (qs.drop k1) z hinit hb2 heq2
        (fun _ => by simpa using h3)
    refine ⟨k1 + k2, cf, ?_, ?_⟩
    · have hjoin : ((qs.take (k1 + k2)).flatten : List Nat) =
          (qs.take k1).flatten ++ ((qs.drop k1).take k2).flatten := by
        rw [List.take_add, List.flatten_append]
      cases hd : aead_decrypt ctx s with
      | error =>
        rw [hd] at h1
        exact absurd h1 (by simp [DecResult.outState])
      | ok out cx =>
        rw [hd] at h1
        simp only [DecResult.outState, Option.some.injEq, Prod.mk.injEq] at h1
        obtain ⟨hout, hcx⟩ := h1
        simp only [feedSegments, hd, hcx, hfeed]
        rw [hjoin, hout]
      | needMore cx =>
        rw [hd] at h1
        simp only [DecResult.outState, Option.some.injEq, Prod.mk.injEq] at h1
        obtain ⟨hout, hcx⟩ := h1
        simp only [feedSegments, hd, hcx, hfeed]
        rw [hjoin, ← hout]
        simp
    · intro hz
      have hdone := hlast hz
      rwa [List.drop_drop] at hdone

/-- Feeding any sequence of segments to a fresh (uninitialized) decrypt
context, where the whole incoming stream is `salt ++ chunk stream`:
no call errors and the concatenated outputs are the plaintexts of the
chunks completed so far; when the segments supply the whole stream,
every chunk is recovered. -/
theorem feedSegments_fresh :
    ∀ (segs : List (List Nat)) (ctx : cipher_ctx_t) (qs : List (List Nat))
      (salt z : List Nat),
      ctx.init = false → (∀ q ∈ qs, chunkOK q) →
      salt.length = ctx.cipher.key_len →
      (∃ w, ctx.chunk ++ w = salt) →
      (ctx.chunk ++ segs.flatten) ++ z =
        salt ++ encStream
          (aead_cipher_ctx_set_subkey ctx.cipher.key ctx.cipher.key_len salt)
          ctx.cipher.tag_len (List.replicate ctx.cipher.nonce_len 0) qs →
      ∃ k cf, feedSegments ctx segs = some ((qs.take k).flatten, cf) ∧
        (z = [] → qs.drop k = []) := by
  intro segs
  induction segs with
  | nil =>
    intro ctx qs salt z hinit hb hslen hpre heq
    refine ⟨0, ctx, by simp [feedSegments], ?_⟩
    intro hz
    subst hz
    simp only [List.flatten_nil, List.append_nil] at heq
    obtain ⟨w, hw⟩ := hpre
    rcases qs with _ | ⟨q, qs2⟩
    · rfl
    · exfalso
      have hlen1 : ctx.chunk.length ≤ salt.length := by
        have := congrArg List.length hw
        simp only [List.length_append] at this
        omega
      have hlen2 := congrArg List.length heq
      have hlen3 := encStream_cons_length
        (aead_cipher_ctx_set_subkey ctx.cipher.key ctx.cipher.key_len salt)
        ctx.cipher.tag_len (List.replicate ctx.cipher.nonce_len 0) q qs2
      have hq1 := (hb q (List.mem_cons_self q qs2)).1
      simp only [List.length_append] at hlen2
      omega
  | cons s ss ihs =>
    intro ctx qs salt z hinit hb hslen hpre heq
    have heqflat : (ctx.chunk ++ s) ++ (ss.flatten ++ z) =
        salt ++ encStream
          (aead_cipher_ctx_set_subkey ctx.cipher.key ctx.cipher.key_len salt)
          ctx.cipher.tag_len (List.replicate ctx.cipher.nonce_len 0) qs := by
      rw [← heq]
      simp [List.append_assoc]
    by_cases hle : (ctx.chunk ++ s).length ≤ ctx.cipher.key_len
    · -- still inside the salt: NEED_MORE, salt not yet consumed
      have hd : aead_decrypt ctx s =
          DecResult.needMore { ctx with chunk := ctx.chunk ++ s } := by
        simp only [aead_decrypt, hinit]
        rw [if_neg Bool.false_ne_true, if_pos hle]
      have htake : ctx.chunk ++ s = salt.take (ctx.chunk ++ s).length := by
        have h := congrArg (List.take (ctx.chunk ++ s).length) heqflat
        rwa [List.take_left, List.take_append_of_le_length (by omega)] at h
      have hw2 : (ctx.chunk ++ s) ++ salt.drop (ctx.chunk ++ s).length = salt := by
        have h3 := List.take_append_drop (ctx.chunk ++ s).length salt
        rw [← htake] at h3
        exact h3
      obtain ⟨k, cf, hfeed, hlast⟩ :=
        ihs { ctx with chunk := ctx.chunk ++ s } qs salt z hinit hb hslen
          ⟨salt.drop (ctx.chunk ++ s).length, hw2⟩
          (by rw [← heqflat]; simp [List.append_assoc])
      refine ⟨k, cf, ?_, hlast⟩
      simp only [feedSegments, hd]
      exact hfeed
    · -- the salt is crossed in this call
      push_neg at hle
      have hklen : ctx.cipher.key_len ≤ (ctx.chunk ++ s).length := le_of_lt hle
      have hle2 : ctx.cipher.key_len < ctx.chunk.length + s.length := by
        simpa using hle
      have hslt : (ctx.chunk ++ s).take ctx.cipher.key_len = salt := by
        have h := congrArg (List.take ctx.cipher.key_len) heqflat
        rwa [List.take_append_of_le_length hklen, List.take_left' hslen] at h
      have hrest : (ctx.chunk ++ s).drop ctx.cipher.key_len ++ (ss.flatten ++ z) =
          encStream
            (aead_cipher_ctx_set_subkey ctx.cipher.key ctx.cipher.key_len salt)
            ctx.cipher.tag_len (List.replicate ctx.cipher.nonce_len 0) qs := by
        have h := congrArg (List.drop ctx.cipher.key_len) heqflat
        rwa [List.drop_append_of_le_length hklen, List.drop_left' hslen] at h
      obtain ⟨k, cf, hfeed, hlast⟩ :=
        feedSegments_inited ([] :: ss)
          { ctx with
             init := true
             salt := salt
             subkey := aead_cipher_ctx_set_subkey ctx.cipher.key
                         ctx.cipher.key_len salt
             nonce := List.replicate ctx.cipher.nonce_len 0
             chunk := (ctx.chunk ++ s).drop ctx.cipher.key_len }
          qs z rfl hb
          (by rw [← hrest]; simp [List.append_assoc])
          (fun hcon => nomatch hcon)
      refine ⟨k, cf, ?_, hlast⟩
      have h2 : aead_decrypt
          { ctx with
             init := true
             salt := salt
             subkey := aead_cipher_ctx_set_subkey ctx.cipher.key
                         ctx.cipher.key_len salt
             nonce := List.replicate ctx.cipher.nonce_len 0
             chunk := (ctx.chunk ++ s).drop ctx.cipher.key_len } [] =
          aead_decrypt_finish
            { ctx with
               init := true
               salt := salt
               subkey := aead_cipher_ctx_set_subkey ctx.cipher.key
                           ctx.cipher.key_len salt
               nonce := List.replicate ctx.cipher.nonce_len 0
               chunk := (ctx.chunk ++ s).drop ctx.cipher.key_len }
            ((ctx.chunk ++ s).drop ctx.cipher.key_len)
            (List.replicate ctx.cipher.nonce_len 0) := by
        simp [aead_decrypt]
      have h1 : aead_decrypt ctx s =
          aead_decrypt_finish
            { ctx with
               init := true
               salt := salt
               subkey := aead_cipher_ctx_set_subkey ctx.cipher.key
                           ctx.cipher.key_len salt
               nonce := List.replicate ctx.cipher.nonce_len 0
               chunk := (ctx.chunk ++ s).drop ctx.cipher.key_len }
            ((ctx.chunk ++ s).drop ctx.cipher.key_len)
            (List.replicate ctx.cipher.nonce_len 0) := by
        simp only [aead_decrypt, hinit]
        rw [if_neg Bool.false_ne_true, if_neg (by omega), hslt]
      calc feedSegments ctx (s :: ss)
          = feedSegments
              { ctx with
                 init := true
                 salt := salt
                 subkey := aead_cipher_ctx_set_subkey ctx.cipher.key
                             ctx.cipher.key_len salt
                 nonce := List.replicate ctx.cipher.nonce_len 0
                 chunk := (ctx.chunk ++ s).drop ctx.cipher.key_len }
              ([] :: ss) := by
            simp only [feedSegments]
            rw [h1, h2]
        _ = some ((qs.take k).flatten, cf) := hfeed

/-- `aead_encrypt` on an already-initialized context: one chunk appended
to the stream, nonce advanced twice, no salt prefix. -/
theorem aead_encrypt_inited (ctx : cipher_ctx_t) (p : List Nat)
    (hinit : ctx.init = true) (hp : 0 < p.length)
    (hmask : p.length ≤ CHUNK_SIZE_MASK) :
    aead_encrypt ctx p =
      (encChunk ctx.subkey ctx.cipher.tag_len ctx.nonce p,
       { ctx with nonce := sodium_increment (sodium_increment ctx.nonce) }) := by
  simp only [aead_encrypt]
  rw [if_neg (by omega)]
  simp only [hinit, if_true]
  rw [aead_chunk_encrypt_spec ctx p ctx.nonce hmask]
  simp

/-- `aead_encrypt` on a fresh context: subkey derived from the salt,
nonce reset to zero, salt prepended, one chunk emitted. -/
theorem aead_encrypt_fresh (ctx : cipher_ctx_t) (p : List Nat)
    (hinit : ctx.init = false) (hp : 0 < p.length)
    (hmask : p.length ≤ CHUNK_SIZE_MASK) :
    aead_encrypt ctx p =
      (ctx.salt ++ encChunk
        (aead_cipher_ctx_set_subkey ctx.cipher.key ctx.cipher.key_len ctx.salt)
        ctx.cipher.tag_len (List.replicate ctx.cipher.nonce_len 0) p,
       { ctx with
          init := true
          subkey := aead_cipher_ctx_set_subkey ctx.cipher.key
                      ctx.cipher.key_len ctx.salt
          nonce := sodium_increment (sodium_increment
                     (List.replicate ctx.cipher.nonce_len 0)) }) := by
  simp only [aead_encrypt]
  rw [if_neg (by omega), hinit]
  simp only [Bool.false_eq_true, if_false]
  rw [aead_chunk_encrypt_spec _ p _ hmask]

/-- Successive `aead_encrypt` calls on an initialized context emit the
chunk stream from the current nonce. -/
theorem encryptSeq_inited :
    ∀ (ps : List (List Nat)) (ctx : cipher_ctx_t),
      ctx.init = true → (∀ p ∈ ps, chunkOK p) →
      ∃ cf, encryptSeq ctx ps =
        (encStream ctx.subkey ctx.cipher.tag_len ctx.nonce ps, cf) := by
  intro ps
  induction ps with
  | nil =>
    intro ctx hinit hb
    exact ⟨ctx, by simp [encryptSeq, encStream]⟩
  | cons p ps ih =>
    intro ctx hinit hb
    have hp := hb p (List.mem_cons_self p ps)
    obtain ⟨cf, hs⟩ := ih
      { ctx with nonce := sodium_increment (sodium_increment ctx.nonce) }
      hinit (fun q hq => hb q (List.mem_cons_of_mem _ hq))
    refine ⟨cf, ?_⟩
    simp only [encryptSeq, aead_encrypt_inited ctx p hinit hp.1 hp.2, hs]
    simp [encStream]

/-- The full TCP encrypt stream: salt, then the chunk stream from nonce
zero under the salt-derived subkey. -/
theorem encryptSeq_fresh (ctx : cipher_ctx_t) (p : List Nat)
    (ps : List (List Nat)) (hinit : ctx.init = false)
    (hb : ∀ q ∈ p :: ps, chunkOK q) :
    ∃ cf, encryptSeq ctx (p :: ps) =
      (ctx.salt ++ encStream
        (aead_cipher_ctx_set_subkey ctx.cipher.key ctx.cipher.key_len ctx.salt)
        ctx.cipher.tag_len (List.replicate ctx.cipher.nonce_len 0) (p :: ps),
       cf) := by
  have hp := hb p (List.mem_cons_self p ps)
  obtain ⟨cf, hs⟩ := encryptSeq_inited ps
    { ctx with
       init := true
       subkey := aead_cipher_ctx_set_subkey ctx.cipher.key
                   ctx.cipher.key_len ctx.salt
       nonce := sodium_increment (sodium_increment
                  (List.replicate ctx.cipher.nonce_len 0)) }
    rfl (fun q hq => hb q (List.mem_cons_of_mem _ hq))
  refine ⟨cf, ?_⟩
  simp only [encryptSeq, aead_encrypt_fresh ctx p hinit hp.1 hp.2, hs]
  simp [encStream, List.append_assoc]

/-- Claim C3: for every plaintext stream encrypted by successive
`aead_encrypt` calls (each call's plaintext nonempty and within the
0x3FFF chunk mask, the bound asserted by `aead_chunk_encrypt` itself)
and every byte-wise partition of the resulting ciphertext into segments,
feeding the segments in order to `aead_decrypt` on a fresh decrypt
context yields exactly the original plaintext concatenation, and no
intermediate call returns an error (each returns `NEED_MORE` or a
partial plaintext, hence `feedSegments` returns `some`). -/
theorem c3_fragmentation_theorem (cip : cipher_t)
    (hm : cip.method < AEAD_CIPHER_NUM) (salt : List Nat)
    (hs : salt.length = cip.key_len) (ps : List (List Nat))
    (hb : ∀ p ∈ ps, 0 < p.length ∧ p.length ≤ CHUNK_SIZE_MASK)
    (segs : List (List Nat))
    (hseg : segs.flatten = (encryptSeq (aead_ctx_init cip salt true) ps).1) :
    ∃ cf, feedSegments (aead_ctx_init cip [] false) segs =
      some (ps.flatten, cf) := by
  rcases ps with _ | ⟨p, ps'⟩
  · -- no plaintext at all: the stream is empty, nothing is decoded
    have hevery : segs.flatten = [] := by
      simpa [encryptSeq] using hseg
    obtain ⟨k, cf, hfeed, _⟩ :=
      feedSegments_fresh segs (aead_ctx_init cip [] false) [] salt salt
        rfl (by simp) (by simpa [aead_ctx_init] using hs)
        ⟨salt, by simp [aead_ctx_init]⟩
        (by simp [aead_ctx_init, hevery, encStream])
    exact ⟨cf, by simpa using hfeed⟩
  · obtain ⟨cfE, hstream⟩ :=
      encryptSeq_fresh (aead_ctx_init cip salt true) p ps' rfl
        (by simpa [chunkOK] using hb)
    rw [hstream] at hseg
    obtain ⟨k, cf, hfeed, hlast⟩ :=
      feedSegments_fresh segs (aead_ctx_init cip [] false) (p :: ps') salt []
        rfl (by simpa [chunkOK] using hb)
        (by simpa [aead_ctx_init] using hs)
        ⟨salt, by simp [aead_ctx_init]⟩
        (by simpa [aead_ctx_init] using hseg)
    have hk : (p :: ps').length ≤ k := by
      have := hlast rfl
      exact (List.drop_eq_nil_iff).mp this
    rw [List.take_of_length_le hk] at hfeed
    exact ⟨cf, hfeed⟩

/-- A name not in the catalog makes `findIdx` return the list length. -/
theorem findIdx_beq_not_found (l : List String) (name : String) (h : name ∉ l) :
    l.findIdx (fun s => s == name) = l.length := by
  induction l with
  | nil => rfl
  | cons a l ih =>
    have hne : (a == name) = false := by
      simp only [beq_eq_false_iff_ne, ne_eq]
      intro hc; exact h (hc ▸ List.mem_cons_self a l)
    rw [List.findIdx_cons, hne]
    simp only [cond_false, List.length_cons]
    have := ih (fun hm => h (List.mem_cons_of_mem _ hm))
    omega

/-- What `aead_encrypt_all` emits, spelled out. -/
theorem aead_encrypt_all_spec (cip : cipher_t) (salt p : List Nat) :
    aead_encrypt_all cip salt p =
      salt ++ aead_cipher_encrypt cip.key (List.replicate cip.nonce_len 0)
        cip.tag_len p := by
  simp [aead_encrypt_all, aead_ctx_init]

theorem aead_encrypt_all_length (cip : cipher_t) (salt p : List Nat)
    (hs : salt.length = cip.key_len) :
    (aead_encrypt_all cip salt p).length =
      cip.key_len + p.length + cip.tag_len := by
  rw [aead_encrypt_all_spec, List.length_append, hs,
      aead_cipher_encrypt_length]
  omega

/-! ### Claims -/

/-- Claim C9: `aead_encrypt` called with a zero-length plaintext returns
OK (reaches its result) and emits no bytes: the buffer is left unchanged
and the context state (init flag, nonce, everything else) is unchanged. -/
theorem c9_empty_encrypt_theorem (ctx : cipher_ctx_t) :
    aead_encrypt ctx [] = ([], ctx) := rfl

/-- Claim C10: `aead_init` with a NULL method name selects aes-128-gcm
(method id 0), not the aes-256-gcm fallback; the aes-256-gcm (id 2)
fallback applies exactly to non-NULL names matching none of the six
supported names, and each supported name selects its own id. -/
theorem c10_null_method_theorem :
    (∀ pass, aead_init pass none = aead_key_init 0 pass) ∧
    (∀ pass name, name ∉ supported_aead_ciphers →
      aead_init pass (some name) = aead_key_init 2 pass) ∧
    (∀ pass (i : Fin supported_aead_ciphers.length),
      aead_init pass (some (supported_aead_ciphers.get i)) =
        aead_key_init i.val pass) := by
  refine ⟨fun pass => rfl, ?_, ?_⟩
  · intro pass name h
    simp only [aead_init]
    rw [findIdx_beq_not_found supported_aead_ciphers name h]
    rfl
  · intro pass i
    match i with
    | ⟨0, _⟩ => rfl
    | ⟨1, _⟩ => rfl
    | ⟨2, _⟩ => rfl
    | ⟨3, _⟩ => rfl
    | ⟨4, _⟩ => rfl
    | ⟨5, _⟩ => rfl

/-- Witness for C10: the unmatched name "rc4-md5" falls back to method
id 2 (aes-256-gcm), while a NULL name yields method id 0. -/
theorem c10_null_method_witness :
    ("rc4-md5" ∉ supported_aead_ciphers) ∧
    aead_init [112] (some "rc4-md5") = aead_key_init 2 [112] ∧
    aead_init [112] none = aead_key_init 0 [112] := by
  refine ⟨by decide, ?_, c10_null_method_theorem.1 [112]⟩
  exact c10_null_method_theorem.2.1 [112] "rc4-md5" (by decide)

/-- Claim C6: `aead_encrypt_all` replaces the buffer with
`salt || AEAD ciphertext || tag` of total length
key_len + len(P) + tag_len, where the AEAD nonce used is the all-zero
block of nonce_len bytes (the zero-initialized context nonce, never
incremented in UDP mode). -/
theorem c6_encrypt_all_theorem (cip : cipher_t)
    (hm : cip.method < AEAD_CIPHER_NUM) (salt p : List Nat)
    (hs : salt.length = cip.key_len) :
    aead_encrypt_all cip salt p =
      salt ++ aead_cipher_encrypt cip.key (List.replicate cip.nonce_len 0)
        cip.tag_len p ∧
    (aead_encrypt_all cip salt p).length =
      cip.key_len + p.length + cip.tag_len :=
  ⟨aead_encrypt_all_spec cip salt p, aead_encrypt_all_length cip salt p hs⟩

/-- Witness for C6 at xchacha20-ietf-poly1305 with password "k" and
plaintext "ping": the output is 32 + 4 + 16 = 52 bytes. -/
theorem c6_encrypt_all_witness :
    (({ method := 5, key := aead_derive_key [107] 32, key_len := 32,
        nonce_len := 24, tag_len := 16 } : cipher_t).method < AEAD_CIPHER_NUM) ∧
    (List.replicate 32 1).length =
      ({ method := 5, key := aead_derive_key [107] 32, key_len := 32,
         nonce_len := 24, tag_len := 16 } : cipher_t).key_len ∧
    (aead_encrypt_all
      { method := 5, key := aead_derive_key [107] 32, key_len := 32,
        nonce_len := 24, tag_len := 16 }
      (List.replicate 32 1) [112, 105, 110, 103]).length = 32 + 4 + 16 := by
  refine ⟨by decide, by decide, ?_⟩
  have h := (c6_encrypt_all_theorem
    { method := 5, key := aead_derive_key [107] 32, key_len := 32,
      nonce_len := 24, tag_len := 16 }
    (by decide) (List.replicate 32 1) [112, 105, 110, 103] (by decide)).2
  simpa using h

/-- Claim C4 counterexample: for the empty plaintext the UDP round trip
fails.  `aead_encrypt_all` produces a valid datagram of exactly
key_len + tag_len bytes, but the `<=` length guard at aead.c line 507
rejects it, so `decrypt_all (encrypt_all [])` is an error, not
`some []` (here at aes-128-gcm, password "p", salt of 3s). -/
theorem c4_counterexample :
    aead_decrypt_all
      { method := 0, key := aead_derive_key [112] 16, key_len := 16,
        nonce_len := 12, tag_len := 16 }
      (aead_encrypt_all
        { method := 0, key := aead_derive_key [112] 16, key_len := 16,
          nonce_len := 12, tag_len := 16 } (List.replicate 16 3) []) = none ∧
    aead_key_init 0 [112] =
      some { method := 0, key := aead_derive_key [112] 16, key_len := 16,
             nonce_len := 12, tag_len := 16 } := by
  constructor
  · decide
  · rfl

/-- Claim C4 (amended): for every supported method, every password,
every salt of key_len bytes and every NONEMPTY plaintext P, the UDP
one-shot round trip holds: `aead_decrypt_all (aead_encrypt_all P)`
succeeds and returns exactly P.  (The code rejects the empty-plaintext
datagram, whose total length equals key_len + tag_len.) -/
theorem c4_roundtrip_theorem (method : Nat) (pass : List Nat)
    (cip : cipher_t) (hcip : aead_key_init method pass = some cip)
    (salt p : List Nat) (hs : salt.length = cip.key_len) (hp : p ≠ []) :
    aead_decrypt_all cip (aead_encrypt_all cip salt p) = some p := by
  have hplen : 0 < p.length := List.length_pos.mpr hp
  have hlen := aead_encrypt_all_length cip salt p hs
  simp only [aead_decrypt_all]
  rw [if_neg (by omega), aead_encrypt_all_spec]
  simp only [aead_ctx_init]
  rw [List.drop_left' hs, aead_cipher_roundtrip]

/-- Witness for C4 at chacha20-ietf-poly1305, password "hello",
plaintext "ping". -/
theorem c4_roundtrip_witness :
    aead_key_init 4 [104, 101, 108, 108, 111] =
      some { method := 4, key := aead_derive_key [104, 101, 108, 108, 111] 32,
             key_len := 32, nonce_len := 12, tag_len := 16 } ∧
    (List.replicate 32 7).length =
      ({ method := 4, key := aead_derive_key [104, 101, 108, 108, 111] 32,
         key_len := 32, nonce_len := 12, tag_len := 16 } : cipher_t).key_len ∧
    aead_decrypt_all
      { method := 4, key := aead_derive_key [104, 101, 108, 108, 111] 32,
        key_len := 32, nonce_len := 12, tag_len := 16 }
      (aead_encrypt_all
        { method := 4, key := aead_derive_key [104, 101, 108, 108, 111] 32,
          key_len := 32, nonce_len := 12, tag_len := 16 }
        (List.replicate 32 7) [112, 105, 110, 103]) =
      some [112, 105, 110, 103] := by
  refine ⟨rfl, by decide, ?_⟩
  exact c4_roundtrip_theorem 4 [104, 101, 108, 108, 111] _ rfl
    (List.replicate 32 7) [112, 105, 110, 103] (by decide) (by decide)

/-- Claim C5 counterexample: an input of length exactly
key_len + tag_len is rejected by `aead_decrypt_all` even though the
claim says inputs of at least key_len + tag_len are accepted; the input
here is even a well-formed datagram (the encryption of the empty
plaintext under aes-256-gcm) that would authenticate. -/
theorem c5_counterexample :
    (aead_encrypt_all
      { method := 2, key := aead_derive_key [113] 32, key_len := 32,
        nonce_len := 12, tag_len := 16 } (List.replicate 32 4) []).length =
      32 + 16 ∧
    aead_decrypt_all
      { method := 2, key := aead_derive_key [113] 32, key_len := 32,
        nonce_len := 12, tag_len := 16 }
      (aead_encrypt_all
        { method := 2, key := aead_derive_key [113] 32, key_len := 32,
          nonce_len := 12, tag_len := 16 } (List.replicate 32 4) []) =
      none := by
  constructor
  · decide
  · decide

/-- Claim C5 (amended): `aead_decrypt_all` fails without attempting
decryption exactly when the input length is at most key_len + tag_len
(the guard at aead.c line 507 uses `<=`); any strictly longer input is
accepted, i.e. handed to the AEAD primitive over the bytes after the
salt with the zero nonce. -/
theorem c5_guard_theorem (cip : cipher_t) (c : List Nat) :
    (c.length ≤ cip.key_len + cip.tag_len → aead_decrypt_all cip c = none) ∧
    (cip.key_len + cip.tag_len < c.length →
      aead_decrypt_all cip c =
        aead_cipher_decrypt cip.key (List.replicate cip.nonce_len 0)
          cip.tag_len (c.drop cip.key_len)) := by
  constructor
  · intro h
    simp only [aead_decrypt_all]
    rw [if_pos h]
  · intro h
    simp only [aead_decrypt_all, aead_ctx_init]
    rw [if_neg (by omega)]

/-- Witness for C5: a 48-byte input is rejected by the guard and a
49-byte input reaches the AEAD primitive (aes-128-gcm sizes). -/
theorem c5_guard_witness :
    ((List.replicate 32 0).length ≤
      ({ method := 0, key := aead_derive_key [112] 16, key_len := 16,
         nonce_len := 12, tag_len := 16 } : cipher_t).key_len + 16) ∧
    aead_decrypt_all
      { method := 0, key := aead_derive_key [112] 16, key_len := 16,
        nonce_len := 12, tag_len := 16 } (List.replicate 32 0) = none ∧
    aead_decrypt_all
      { method := 0, key := aead_derive_key [112] 16, key_len := 16,
        nonce_len := 12, tag_len := 16 } (List.replicate 33 0) =
      aead_cipher_decrypt (aead_derive_key [112] 16)
        (List.replicate 12 0) 16 ((List.replicate 33 0).drop 16) := by
  refine ⟨by decide, ?_, ?_⟩
  · exact (c5_guard_theorem
      { method := 0, key := aead_derive_key [112] 16, key_len := 16,
        nonce_len := 12, tag_len := 16 } (List.replicate 32 0)).1 (by decide)
  · exact (c5_guard_theorem
      { method := 0, key := aead_derive_key [112] 16, key_len := 16,
        nonce_len := 12, tag_len := 16 } (List.replicate 33 0)).2 (by decide)

/-- Claim C7: on the first `aead_encrypt` call with a nonempty plaintext
of n bytes (n ≤ 0x3FFF), the output has length
key_len + 2 + tag_len + n + tag_len and begins with the salt; the
context becomes initialized and a subsequent call emits
2 + tag_len + n2 + tag_len bytes, without the salt prefix. -/
theorem c7_first_encrypt_theorem (cip : cipher_t)
    (hm : cip.method < AEAD_CIPHER_NUM) (salt p1 p2 : List Nat)
    (hs : salt.length = cip.key_len)
    (h1 : 0 < p1.length) (h1m : p1.length ≤ CHUNK_SIZE_MASK)
    (h2 : 0 < p2.length) (h2m : p2.length ≤ CHUNK_SIZE_MASK) :
    (aead_encrypt (aead_ctx_init cip salt true) p1).1.length =
      cip.key_len + CHUNK_SIZE_LEN + cip.tag_len + p1.length + cip.tag_len ∧
    (aead_encrypt (aead_ctx_init cip salt true) p1).1.take cip.key_len =
      salt ∧
    (aead_encrypt (aead_ctx_init cip salt true) p1).2.init = true ∧
    (aead_encrypt ((aead_encrypt (aead_ctx_init cip salt true) p1).2)
        p2).1.length =
      CHUNK_SIZE_LEN + cip.tag_len + p2.length + cip.tag_len := by
  have hctx0 : aead_ctx_init cip salt true =
      { cipher := cip, init := false, salt := salt,
        subkey := List.replicate cip.key_len 0,
        nonce := List.replicate cip.nonce_len 0, chunk := [] } := by
    simp [aead_ctx_init]
  rw [hctx0]
  rw [aead_encrypt_fresh
    { cipher := cip, init := false, salt := salt,
      subkey := List.replicate cip.key_len 0,
      nonce := List.replicate cip.nonce_len 0, chunk := [] } p1 rfl h1 h1m]
  refine ⟨?_, ?_, rfl, ?_⟩
  · simp only [List.length_append, encChunk_length, hs]
    omega
  · exact List.take_left' hs
  · rw [aead_encrypt_inited _ p2 rfl h2 h2m]
    simp only [encChunk_length]
    omega

/-- Witness for C7 (scenario S1): chacha20-ietf-poly1305, password
"hello", 1-byte plaintext "A": first output is 32+2+16+1+16 = 67 bytes
and starts with the salt; a following 1-byte chunk gives 35 bytes. -/
theorem c7_first_encrypt_witness :
    (aead_encrypt (aead_ctx_init
      { method := 4, key := aead_derive_key [104, 101, 108, 108, 111] 32,
        key_len := 32, nonce_len := 12, tag_len := 16 }
      (List.replicate 32 2) true) [65]).1.length = 67 ∧
    (aead_encrypt (aead_ctx_init
      { method := 4, key := aead_derive_key [104, 101, 108, 108, 111] 32,
        key_len := 32, nonce_len := 12, tag_len := 16 }
      (List.replicate 32 2) true) [65]).1.take 32 = List.replicate 32 2 ∧
    (aead_encrypt ((aead_encrypt (aead_ctx_init
      { method := 4, key := aead_derive_key [104, 101, 108, 108, 111] 32,
        key_len := 32, nonce_len := 12, tag_len := 16 }
      (List.replicate 32 2) true) [65]).2) [66]).1.length = 35 := by
  have h := c7_first_encrypt_theorem
    { method := 4, key := aead_derive_key [104, 101, 108, 108, 111] 32,
      key_len := 32, nonce_len := 12, tag_len := 16 }
    (by decide) (List.replicate 32 2) [65] [66] (by decide)
    (by decide) (by decide) (by decide) (by decide)
  obtain ⟨ha, hb, _, hd⟩ := h
  refine ⟨?_, ?_, ?_⟩
  · rw [ha]; rfl
  · exact hb
  · rw [hd]; rfl

/-- Claim C8: during TCP chunk decryption, once the length chunk
authenticates (decrypts to `lb`), a decoded length `lenVal lb` equal to
0 or greater than 0x3FFF makes `aead_decrypt` return a fatal error —
never NEED_MORE or OK. -/
theorem c8_bad_length_theorem (ctx : cipher_ctx_t) (hinit : ctx.init = true)
    (hchunk : ctx.chunk = []) (s lb : List Nat)
    (hlen : 2 * ctx.cipher.tag_len + CHUNK_SIZE_LEN < s.length)
    (hdec : aead_cipher_decrypt ctx.subkey ctx.nonce ctx.cipher.tag_len
      (s.take (CHUNK_SIZE_LEN + ctx.cipher.tag_len)) = some lb)
    (hbad : lenVal lb = 0 ∨ CHUNK_SIZE_MASK < lenVal lb) :
    aead_decrypt ctx s = DecResult.error := by
  have hcd : aead_chunk_decrypt ctx s ctx.nonce = ChunkDec.error := by
    simp only [aead_chunk_decrypt]
    rw [if_neg (by omega)]
    simp only [hdec]
    rcases hbad with hb0 | hbm
    · rw [if_neg (by omega : ¬ lenVal lb > CHUNK_SIZE_MASK), if_pos hb0]
    · rw [if_pos (by omega : lenVal lb > CHUNK_SIZE_MASK)]
  have hloop : aead_decrypt_chunks ctx (s.length + 1) s ctx.nonce =
      LoopRes.err := by
    simp only [aead_decrypt_chunks]
    rw [if_neg (by omega), hcd]
  simp only [aead_decrypt, hinit, if_true, hchunk, List.nil_append,
    aead_decrypt_finish, hloop]

/-- Witness for C8: a forged chunk whose length field authenticates and
decodes to 0 draws a fatal error (miniature cipher sizes, tag_len 1). -/
theorem c8_bad_length_witness :
    aead_cipher_decrypt [4, 5] [0] 1
      ((aead_cipher_encrypt [4, 5] [0] 1 [0, 0] ++ [0, 0]).take
        (CHUNK_SIZE_LEN + 1)) = some [0, 0] ∧
    lenVal [0, 0] = 0 ∧
    aead_decrypt
      { cipher := { method := 0, key := [1], key_len := 1, nonce_len := 1,
                    tag_len := 1 },
        init := true, salt := [], subkey := [4, 5], nonce := [0], chunk := [] }
      (aead_cipher_encrypt [4, 5] [0] 1 [0, 0] ++ [0, 0]) =
      DecResult.error := by
  refine ⟨by decide, by decide, ?_⟩
  exact c8_bad_length_theorem
    { cipher := { method := 0, key := [1], key_len := 1, nonce_len := 1,
                  tag_len := 1 },
      init := true, salt := [], subkey := [4, 5], nonce := [0], chunk := [] }
    rfl rfl (aead_cipher_encrypt [4, 5] [0] 1 [0, 0] ++ [0, 0]) [0, 0]
    (by decide) (by decide) (Or.inl (by decide))

/-- Claim C1 counterexample: a cipher with key_len 2, tag_len 1,
nonce_len 1 and one 2-byte plaintext chunk; the encrypter emits 8 bytes
(2 salt + 3 length chunk + 3 payload chunk).  Feeding the first 7 bytes
(salt, the full length ciphertext, and all but one payload byte) to a
fresh decrypter returns NEED_MORE with the context nonce still the
all-zero block — NOT advanced past the length decryption as the claim
states (`sodium_increment` of the zero nonce differs from it). -/
theorem c1_counterexample :
    (match aead_decrypt
        (aead_ctx_init
          { method := 0, key := [1, 2], key_len := 2,
            nonce_len := 1, tag_len := 1 } [] false)
        ((encryptSeq (aead_ctx_init
            { method := 0, key := [1, 2], key_len := 2,
              nonce_len := 1, tag_len := 1 } [7, 9] true) [[65, 66]]).1.take 7) with
      | DecResult.needMore c => c.nonce
      | _ => []) = List.replicate 1 0 ∧
    sodium_increment (List.replicate 1 0) ≠ List.replicate 1 0 := by
  constructor
  · decide
  · decide

/-- Claim C1 (amended): when the reassembly buffer of an initialized
context holds the full length ciphertext of the next chunk but fewer
than chunk_len = 2 + 2*tag_len + mlen bytes, `aead_decrypt` returns
NEED_MORE with the nonce UNCHANGED (aead.c line 695 returns before any
`sodium_increment`) and all buffered bytes retained, so the next call
re-decrypts the length chunk with that same nonce. -/
theorem c1_needmore_theorem (ctx : cipher_ctx_t) (hinit : ctx.init = true)
    (hchunk : ctx.chunk = []) (q s w : List Nat) (hq : chunkOK q)
    (hz : s ++ w = encChunk ctx.subkey ctx.cipher.tag_len ctx.nonce q)
    (hfull : 2 * ctx.cipher.tag_len + CHUNK_SIZE_LEN < s.length)
    (hshort : s.length < 2 * ctx.cipher.tag_len + CHUNK_SIZE_LEN + q.length) :
    aead_decrypt ctx s =
      DecResult.needMore { ctx with chunk := s, nonce := ctx.nonce } := by
  have hz2 : s ++ w = encChunk ctx.subkey ctx.cipher.tag_len ctx.nonce q
      ++ [] := by
    rw [List.append_nil]; exact hz
  have hnm := aead_chunk_decrypt_partial ctx ctx.nonce q s w [] hq hz2 hshort
  have hloop : aead_decrypt_chunks ctx (s.length + 1) s ctx.nonce =
      LoopRes.more [] s ctx.nonce := by
    simp only [aead_decrypt_chunks]
    rw [if_neg (by omega), hnm]
  simp only [aead_decrypt, hinit, if_true, hchunk, List.nil_append,
    aead_decrypt_finish, hloop, List.length_nil, if_pos rfl]

/-- Witness for C1 (amended): miniature sizes (tag_len 1), 2-byte
chunk, first 5 of its 6 bytes buffered. -/
theorem c1_needmore_witness :
    ((encChunk [3, 4] 1 [0] [7, 8]).take 5 ++ (encChunk [3, 4] 1 [0] [7, 8]).drop 5
      = encChunk [3, 4] 1 [0] [7, 8]) ∧
    ((encChunk [3, 4] 1 [0] [7, 8]).take 5).length = 5 ∧
    aead_decrypt
      { cipher := { method := 0, key := [1], key_len := 1, nonce_len := 1,
                    tag_len := 1 },
        init := true, salt := [], subkey := [3, 4], nonce := [0], chunk := [] }
      ((encChunk [3, 4] 1 [0] [7, 8]).take 5) =
      DecResult.needMore
        { cipher := { method := 0, key := [1], key_len := 1, nonce_len := 1,
                      tag_len := 1 },
          init := true, salt := [], subkey := [3, 4], nonce := [0],
          chunk := (encChunk [3, 4] 1 [0] [7, 8]).take 5 } := by
  refine ⟨List.take_append_drop 5 _, by decide, ?_⟩
  exact c1_needmore_theorem
    { cipher := { method := 0, key := [1], key_len := 1, nonce_len := 1,
                  tag_len := 1 },
      init := true, salt := [], subkey := [3, 4], nonce := [0], chunk := [] }
    rfl rfl [7, 8] ((encChunk [3, 4] 1 [0] [7, 8]).take 5)
    ((encChunk [3, 4] 1 [0] [7, 8]).drop 5)
    (by decide) (List.take_append_drop 5 _) (by decide) (by decide)

/-- Claim C2 counterexample: a cipher with key_len 4; feeding exactly
key_len = 4 bytes (exactly the salt) to a fresh decrypt context returns
NEED_MORE, but the `<=` comparison at aead.c line 742 leaves the salt
in the reassembly buffer, the subkey underived and `init` still false —
contrary to the claim. -/
theorem c2_counterexample :
    aead_decrypt
      (aead_ctx_init
        { method := 0, key := [1, 2, 3, 4], key_len := 4,
          nonce_len := 1, tag_len := 1 } [] false)
      (List.replicate 4 5) =
      DecResult.needMore
        { cipher := { method := 0, key := [1, 2, 3, 4], key_len := 4,
                      nonce_len := 1, tag_len := 1 },
          init := false, salt := List.replicate 4 0,
          subkey := List.replicate 4 0, nonce := List.replicate 1 0,
          chunk := List.replicate 4 5 } := by decide

/-- Claim C2 (amended): while a fresh decrypt context has buffered at
most key_len bytes, `aead_decrypt` returns NEED_MORE with the incoming
bytes appended to the reassembly buffer, the salt NOT consumed, the
subkey underived and `init` still false; the salt is consumed only once
strictly more than key_len bytes are buffered (the comparison at aead.c
line 742 is `<=`, not `<`). -/
theorem c2_salt_needmore_theorem (ctx : cipher_ctx_t) (s : List Nat)
    (hinit : ctx.init = false)
    (hle : (ctx.chunk ++ s).length ≤ ctx.cipher.key_len) :
    aead_decrypt ctx s =
      DecResult.needMore { ctx with init := false, chunk := ctx.chunk ++ s } := by
  simp only [aead_decrypt, hinit]
  rw [if_neg Bool.false_ne_true, if_pos hle]

/-- Witness for C2 (amended): exactly key_len bytes buffered. -/
theorem c2_salt_needmore_witness :
    (((aead_ctx_init
        { method := 0, key := [1, 2, 3, 4], key_len := 4,
          nonce_len := 1, tag_len := 1 } [] false).chunk ++
        List.replicate 4 6).length ≤ 4) ∧
    aead_decrypt
      (aead_ctx_init
        { method := 0, key := [1, 2, 3, 4], key_len := 4,
          nonce_len := 1, tag_len := 1 } [] false)
      (List.replicate 4 6) =
      DecResult.needMore
        { aead_ctx_init
            { method := 0, key := [1, 2, 3, 4], key_len := 4,
              nonce_len := 1, tag_len := 1 } [] false with
          init := false
          chunk := (aead_ctx_init
            { method := 0, key := [1, 2, 3, 4], key_len := 4,
              nonce_len := 1, tag_len := 1 } [] false).chunk ++
            List.replicate 4 6 } := by
  refine ⟨by decide, ?_⟩
  exact c2_salt_needmore_theorem
    (aead_ctx_init
      { method := 0, key := [1, 2, 3, 4], key_len := 4,
        nonce_len := 1, tag_len := 1 } [] false)
    (List.replicate 4 6) rfl (by decide)

/-- Witness for C3: a miniature cipher (key_len 2, tag_len 1,
nonce_len 1), two plaintext chunks [5] and [6,6], the whole encrypted
stream fed as a single segment; the decrypter returns the concatenated
plaintext [5,6,6]. -/
theorem c3_fragmentation_witness :
    (∀ p ∈ ([[5], [6, 6]] : List (List Nat)),
      0 < p.length ∧ p.length ≤ CHUNK_SIZE_MASK) ∧
    ∃ cf, feedSegments
      (aead_ctx_init { method := 0, key := [1, 2], key_len := 2,
                       nonce_len := 1, tag_len := 1 } [] false)
      [(encryptSeq (aead_ctx_init
          { method := 0, key := [1, 2], key_len := 2,
            nonce_len := 1, tag_len := 1 } [7, 9] true) [[5], [6, 6]]).1] =
      some ([5, 6, 6], cf) := by
  constructor
  · decide
  · have h := c3_fragmentation_theorem
      { method := 0, key := [1, 2], key_len := 2, nonce_len := 1, tag_len := 1 }
      (by decide) [7, 9] (by decide) [[5], [6, 6]] (by decide)
      [(encryptSeq (aead_ctx_init
          { method := 0, key := [1, 2], key_len := 2,
            nonce_len := 1, tag_len := 1 } [7, 9] true) [[5], [6, 6]]).1]
      (by simp)
    simpa using h
